import Mathlib

/-!
Verification development for `receipt-extractor.py`.

The script downloads receipt images from a cloud drive, archives them to an
object-storage bucket, runs OCR text detection, parses a few fields out of
the raw text with substring heuristics, and appends a row to a spreadsheet.

Python strings are embedded as `List Char` (`PyStr`), so every operation of
the source (`str.split`, `in`, `lower`, indexing, negative indexing) is a
plain structurally recursive Lean function that the kernel can evaluate.
External services (Drive listing, bucket upload, Vision, Sheets) are oracles
in an `Env` record; the orchestration of `main` is embedded over them.
-/

set_option autoImplicit false

namespace ReceiptExtractor

/-- Python strings, embedded as lists of characters. -/
abbrev PyStr := List Char

/-- Python runtime errors that the script can raise. -/
inductive PyErr where
  | indexError
  | unboundLocal
deriving DecidableEq, Repr

/-! ### Python string primitives -/

/-- Prepend a character to the first piece of a split result (helper for the
splitters); on an empty list of pieces it creates a singleton piece. -/
def consHead (x : Char) : List PyStr → List PyStr
  | [] => [[x]]
  | p :: ps => (x :: p) :: ps

/-- Python `s.split(sep)` for a one-character separator `c`: splits at every
occurrence, keeps empty pieces, and `"".split(c) = [""]`. -/
def splitOnCh (c : Char) : PyStr → List PyStr
  | [] => [[]]
  | x :: xs => if x = c then [] :: splitOnCh c xs else consHead x (splitOnCh c xs)

/-- Python `s.split("RM")`: split on the two-character separator `"RM"`,
scanning left to right without overlap (the separator used at
`line.split("RM")[-1]` in the source). -/
def splitOnRM : PyStr → List PyStr
  | 'R' :: 'M' :: xs => [] :: splitOnRM xs
  | x :: xs => consHead x (splitOnRM xs)
  | [] => [[]]

/-- Python `s.lower()` (ASCII case folding, which covers every pattern the
source lowers: `"Date"`, `"Total"`, `"RM"`). -/
def lowerStr (s : PyStr) : PyStr := s.map Char.toLower

/-- Does `p` occur at the start of `s`? (helper for substring containment). -/
def begMatch : PyStr → PyStr → Bool
  | [], _ => true
  | _ :: _, [] => false
  | a :: p, b :: s => a == b && begMatch p s

/-- Python `p in s` substring containment (`"" in s` is `True`). -/
def containsSub (p : PyStr) : PyStr → Bool
  | [] => p.isEmpty
  | x :: xs => begMatch p (x :: xs) || containsSub p xs

/-- The source's `containsCaseInsensitive(substring, string)`:
`substring.lower() in string.lower()`. -/
def containsCaseInsensitive (sub s : PyStr) : Bool :=
  containsSub (lowerStr sub) (lowerStr s)

/-- The literal `"Date"` the source searches for. -/
def datePat : PyStr := ['D', 'a', 't', 'e']

/-- The literal `"Total"` the source searches for. -/
def totalPat : PyStr := ['T', 'o', 't', 'a', 'l']

/-- The literal `"RM"` the source searches for and splits on. -/
def rmPat : PyStr := ['R', 'M']

/-! ### The field parser of `vision_detect_text_img` -/

/-- Python `line.split(" ")[1]`: `some` second piece, or `none` when the
index is out of range (Python raises `IndexError` there). -/
def secondField? (l : PyStr) : Option PyStr :=
  match splitOnCh ' ' l with
  | _ :: t :: _ => some t
  | _ => none

/-- Python `xs[-1]` on a list of strings; split results are never empty, so
the `[]` case (Python would raise there) is unreachable where this is used. -/
def pyLast : List PyStr → PyStr
  | [] => []
  | [p] => p
  | _ :: q :: ps => pyLast (q :: ps)

/-- The total-price branch of the loop body, for a line that already matched
`"Total"`: `line.split("RM")[-1]` when the line contains `"RM"`
case-insensitively, else `line.split(" ")[-1]`. -/
def totalOfLine (l : PyStr) : PyStr :=
  if containsCaseInsensitive rmPat l then pyLast (splitOnRM l)
  else pyLast (splitOnCh ' ' l)

/-- One loop iteration's effect on `total_price`. -/
def nextTotal (l t : PyStr) : PyStr :=
  if containsCaseInsensitive totalPat l then totalOfLine l else t

/-- The `for line in lines` loop of `vision_detect_text_img`, threading the
`date` and `total_price` variables; a date-matching line with fewer than two
space-separated fields raises `IndexError`. -/
def parseLines : List PyStr → PyStr → PyStr → Except PyErr (PyStr × PyStr)
  | [], d, t => .ok (d, t)
  | l :: rest, d, t =>
    if containsCaseInsensitive datePat l then
      match secondField? l with
      | none => .error .indexError
      | some d' => parseLines rest d' (nextTotal l t)
    else parseLines rest d (nextTotal l t)

/-- Python `lines[1] + " " + lines[2] + " " + lines[3]`; `none` models the
`IndexError` when the blob has fewer than four lines. -/
def shopAddressOf : List PyStr → Option PyStr
  | _ :: l1 :: l2 :: l3 :: _ => some (l1 ++ ' ' :: l2 ++ ' ' :: l3)
  | _ => none

/-- A Vision API response: `textAnns` is the value of the
`textAnnotations` key when present (each element the annotation's
`description`, defaulted to `""` by the source's `.get`), and
`hasOtherKeys` records whether the response dict has any other key
(for Python truthiness). -/
structure VisionRsp where
  textAnns : Option (List PyStr)
  hasOtherKeys : Bool
deriving DecidableEq, Repr

/-- Python truthiness of the response dict: non-empty iff it has a key. -/
def rspTruthy (r : VisionRsp) : Bool :=
  r.textAnns.isSome || r.hasOtherKeys

/-- The values `vision_detect_text_img` returns alongside the raw response. -/
structure Extracted where
  extracted_text : PyStr
  shop_name : PyStr
  shop_address : PyStr
  date : PyStr
  total_price : PyStr
deriving DecidableEq, Repr

/-- The body of `vision_detect_text_img` after the API call, as a function of
the response.  When the `textAnnotations` key is absent the Python function
raises `UnboundLocalError` at its `return` statement, because `shop_name` and
`shop_address` are only assigned inside the `if 'textAnnotations' in rsp`
block (only `extracted_text`, `date`, `total_price` are initialised). -/
def vision_detect_text_img (rsp : VisionRsp) : Except PyErr (VisionRsp × Extracted) :=
  match rsp.textAnns with
  | none => .error .unboundLocal
  | some [] => .error .indexError
  | some (t :: _) =>
    let lines := splitOnCh '\n' t
    match shopAddressOf lines with
    | none => .error .indexError
    | some addr =>
      match parseLines lines [] [] with
      | .error e => .error e
      | .ok (d, tp) => .ok (rsp, ⟨t, lines.headD [], addr, d, tp⟩)

/-- The field parser applied to a text blob `t`, i.e. `vision_detect_text_img`
on a response whose single annotation has description `t`. -/
def parseBlob (t : PyStr) : Except PyErr Extracted :=
  (vision_detect_text_img ⟨some [t], false⟩).map (fun p => p.2)

/-! ### The orchestrator `main` -/

/-- One entry of the Drive listing: `files(id,name,mimeType,modifiedTime)`. -/
structure SourceFile where
  id : PyStr
  name : PyStr
  mimeType : PyStr
  modifiedTime : PyStr
deriving DecidableEq, Repr

/-- The external services `main` calls, as oracles.

* `listing` — the file list `drive_get_img()` returns (the folder id is fixed
  in the source, so the listing is a constant of the run).
* `media` — `DRIVE.files().get_media(fileId).execute()`, the file's bytes.
* `uploadRsp` — truthiness of `gcs_blob_upload`'s response for a destination
  path; `none` is a falsy response (`if not rsp: return`), and the object is
  then not created in the bucket.
* `annotate` — the Vision response for a file's bytes (the source passes the
  base64 encoding of the bytes; the encoding is composed into the oracle).
* `appendRsp` — `sheet_append_row`'s confirmation for a row: `some n` is a
  response with `n` updated cells, `none` a falsy response, and the row is
  then not appended. -/
structure Env where
  listing : List SourceFile
  media : SourceFile → PyStr
  uploadRsp : PyStr → Option Unit
  annotate : PyStr → VisionRsp
  appendRsp : List PyStr → Option Nat

/-- How a run of `main` ends: `return True`, an early `return` (value `None`),
or an uncaught Python exception. -/
inductive MainRet where
  | success
  | earlyNone
  | exn (e : PyErr)
deriving DecidableEq, Repr

/-- The observable outcome of a run: the final bucket object paths, the
uploads performed by the run, the rows appended by the run, and how the run
ended. -/
structure RunOut where
  bucket : List PyStr
  ups : List PyStr
  rows : List (List PyStr)
  ret : MainRet
deriving DecidableEq, Repr

/-- The `'=HYPERLINK("storage.cloud.google.com/%s/%s", "%s")'` cell of the
report row. -/
def hyperlinkCell (bucket gcsname fname : PyStr) : PyStr :=
  "=HYPERLINK(\"storage.cloud.google.com/".toList ++ bucket ++ '/' :: gcsname
    ++ "\", \"".toList ++ fname ++ "\")".toList

/-- The report row `main` appends for one processed file. -/
def rowOf (bucket folder : PyStr) (f : SourceFile) (ex : Extracted) : List PyStr :=
  [ex.date, hyperlinkCell bucket (folder ++ '/' :: f.name) f.name,
    ex.shop_name, ex.shop_address, ex.total_price, f.modifiedTime]

/-- The per-file loop of `main`, over the listed files, threading the bucket
contents `st` (the source re-lists the bucket on every iteration, filtered by
the folder as its blob-listing call does).  Effects accumulate across
iterations; a falsy upload or append response ends the run with `earlyNone`,
and an exception out of `vision_detect_text_img` ends it with `exn`. -/
def procFiles (env : Env) (bucket folder : PyStr) :
    List SourceFile → List PyStr → RunOut
  | [], st => ⟨st, [], [], .success⟩
  | f :: rest, st =>
    let path := folder ++ '/' :: f.name
    let files := st.filter (fun p => begMatch folder p)
    if path ∈ files then procFiles env bucket folder rest st
    else
      match env.uploadRsp path with
      | none => ⟨st, [], [], .earlyNone⟩
      | some _ =>
        let st' := st ++ [path]
        match vision_detect_text_img (env.annotate (env.media f)) with
        | .error e => ⟨st', [path], [], .exn e⟩
        | .ok (rsp, ex) =>
          if rspTruthy rsp then
            match env.appendRsp (rowOf bucket folder f ex) with
            | none => ⟨st', [path], [], .earlyNone⟩
            | some _ =>
              let o := procFiles env bucket folder rest st'
              ⟨o.bucket, path :: o.ups, rowOf bucket folder f ex :: o.rows, o.ret⟩
          else ⟨st', [path], [], .earlyNone⟩

/-- `main(bucket, sheet_id, folder, debug)` over the oracle environment and
the initial bucket contents `st`: an empty (falsy) Drive listing returns
early, otherwise each listed file is processed in order. -/
def mainRun (env : Env) (bucket folder : PyStr) (st : List PyStr) : RunOut :=
  match env.listing with
  | [] => ⟨st, [], [], .earlyNone⟩
  | _ :: _ => procFiles env bucket folder env.listing st

/-- What the CLI (`__main__`) shows for a run. -/
inductive CliMsg where
  | doneOpensSheet
  | genericError
  | traceback (e : PyErr)
deriving DecidableEq, Repr

/-- The `__main__` block: a truthy `main` result prints `DONE` and opens the
spreadsheet, a `None` result prints `ERROR: could not process`, and an
uncaught exception terminates the process with a traceback (nothing of the
success/error branch runs). -/
def cliRun (env : Env) (bucket folder : PyStr) (st : List PyStr) : CliMsg :=
  match (mainRun env bucket folder st).ret with
  | .success => .doneOpensSheet
  | .earlyNone => .genericError
  | .exn e => .traceback e

/-! ### Lemmas about the string primitives -/

theorem consHead_ne_nil (x : Char) (ps : List PyStr) : consHead x ps ≠ [] := by
  cases ps <;> simp [consHead]

theorem splitOnCh_ne_nil (c : Char) (s : PyStr) : splitOnCh c s ≠ [] := by
  induction s with
  | nil => simp [splitOnCh]
  | cons x xs ih =>
    by_cases h : x = c <;> simp [splitOnCh, h, consHead_ne_nil]

theorem pyLast_cons_of_ne_nil (p : PyStr) (r : List PyStr) (h : r ≠ []) :
    pyLast (p :: r) = pyLast r := by
  cases r with
  | nil => exact absurd rfl h
  | cons q ps => rfl

theorem pyLast_consHead (x : Char) (r : List PyStr) (h : 2 ≤ r.length) :
    pyLast (consHead x r) = pyLast r := by
  match r with
  | [] => simp at h
  | [p] => simp at h
  | p :: q :: ps => rfl

/-- A single-character split with no occurrence of the separator returns the
whole string as its one piece. -/
theorem splitOnCh_eq_single (c : Char) (s : PyStr) (h : c ∉ s) :
    splitOnCh c s = [s] := by
  induction s with
  | nil => rfl
  | cons x xs ih =>
    simp only [List.mem_cons, not_or] at h
    have hx : ¬ x = c := fun hc => h.1 hc.symm
    simp [splitOnCh, hx, ih h.2, consHead]

/-- A single-character split at an occurring separator has at least two
pieces. -/
theorem two_le_splitOnCh_length (c : Char) (s : PyStr) (h : c ∈ s) :
    2 ≤ (splitOnCh c s).length := by
  induction s with
  | nil => cases h
  | cons x xs ih =>
    by_cases hx : x = c
    · have h1 : splitOnCh c xs ≠ [] := splitOnCh_ne_nil c xs
      have h2 : 0 < (splitOnCh c xs).length := List.length_pos.mpr h1
      simp only [splitOnCh, if_pos hx, List.length_cons]
      omega
    · have hmem : c ∈ xs := by
        rcases List.mem_cons.mp h with h1 | h1
        · exact absurd h1.symm hx
        · exact h1
      have h2 := ih hmem
      rcases hr : splitOnCh c xs with _ | ⟨p, ps⟩
      · exact absurd hr (splitOnCh_ne_nil c xs)
      · rcases ps with _ | ⟨q, ps'⟩
        · rw [hr] at h2; simp at h2
        · simp [splitOnCh, hx, hr, consHead]

/-- Characterisation of the last piece of a single-character split: it never
contains the separator; when the separator occurs, the string is a prefix,
the separator, then the last piece; otherwise it is the whole string. -/
theorem splitOnCh_pyLast_spec (c : Char) (s : PyStr) :
    c ∉ pyLast (splitOnCh c s)
      ∧ (c ∈ s → ∃ pre, s = pre ++ c :: pyLast (splitOnCh c s))
      ∧ (c ∉ s → pyLast (splitOnCh c s) = s) := by
  induction s with
  | nil => exact ⟨by simp [splitOnCh, pyLast], fun h => absurd h (by simp), fun _ => rfl⟩
  | cons x xs ih =>
    rcases ih with ⟨ih1, ih2, ih3⟩
    by_cases hx : x = c
    · have hstep : pyLast (splitOnCh c (x :: xs)) = pyLast (splitOnCh c xs) := by
        simp only [splitOnCh, if_pos hx]
        exact pyLast_cons_of_ne_nil [] _ (splitOnCh_ne_nil c xs)
      refine ⟨hstep ▸ ih1, fun _ => ?_,
        fun hni => absurd (show c ∈ x :: xs by rw [hx]; exact List.mem_cons_self c xs) hni⟩
      · by_cases hin : c ∈ xs
        · rcases ih2 hin with ⟨pre, hpre⟩
          exact ⟨x :: pre, by rw [hstep, List.cons_append, ← hpre]⟩
        · exact ⟨[], by rw [hstep, ih3 hin, List.nil_append, hx]⟩
    · by_cases hin : c ∈ xs
      · have hstep : pyLast (splitOnCh c (x :: xs)) = pyLast (splitOnCh c xs) := by
          simp only [splitOnCh, if_neg hx]
          exact pyLast_consHead x _ (two_le_splitOnCh_length c xs hin)
        refine ⟨hstep ▸ ih1, fun _ => ?_, fun hni => absurd hin (fun hc => hni (List.mem_cons_of_mem x hc))⟩
        rcases ih2 hin with ⟨pre, hpre⟩
        exact ⟨x :: pre, by rw [hstep, List.cons_append, ← hpre]⟩
      · have hstep : pyLast (splitOnCh c (x :: xs)) = x :: xs := by
          simp only [splitOnCh, if_neg hx, splitOnCh_eq_single c xs hin, consHead, pyLast]
        refine ⟨?_, fun hmem => ?_, fun _ => hstep⟩
        · rw [hstep]
          simp only [List.mem_cons, not_or]
          exact ⟨fun hc => hx hc.symm, hin⟩
        · rcases List.mem_cons.mp hmem with h1 | h1
          · exact absurd h1.symm hx
          · exact absurd h1 hin

theorem consHead_length_of_ne_nil (x : Char) (r : List PyStr) (h : r ≠ []) :
    (consHead x r).length = r.length := by
  cases r with
  | nil => exact absurd rfl h
  | cons p ps => rfl

/-- `begMatch rmPat (x :: xs)` holds exactly when the string starts with
`'R'` then `'M'`. -/
theorem begMatch_rm_iff (x : Char) (xs : PyStr) :
    begMatch rmPat (x :: xs) = true ↔ x = 'R' ∧ ∃ ys, xs = 'M' :: ys := by
  constructor
  · intro h
    simp only [rmPat, begMatch, Bool.and_eq_true, beq_iff_eq] at h
    rcases h with ⟨h1, h2⟩
    refine ⟨h1.symm, ?_⟩
    cases xs with
    | nil => simp [begMatch] at h2
    | cons y ys =>
      simp only [begMatch, Bool.and_eq_true, beq_iff_eq] at h2
      exact ⟨ys, by rw [← h2.1]⟩
  · rintro ⟨rfl, ys, rfl⟩
    simp [rmPat, begMatch]

theorem splitOnRM_ne_nil (s : PyStr) : splitOnRM s ≠ [] := by
  induction s using splitOnRM.induct with
  | case1 xs ih => simp [splitOnRM]
  | case2 x xs h ih =>
    rw [splitOnRM.eq_2 x xs h]
    exact consHead_ne_nil x _
  | case3 => simp [splitOnRM]

theorem containsSub_rm_rm_cons (xs : PyStr) :
    containsSub rmPat ('R' :: 'M' :: xs) = true := by
  simp [containsSub, rmPat, begMatch]

/-- When `"RM"` does not occur in the line, `line.split("RM")` is the whole
line as its single piece. -/
theorem splitOnRM_eq_single (s : PyStr) (h : containsSub rmPat s = false) :
    splitOnRM s = [s] := by
  induction s using splitOnRM.induct with
  | case1 xs ih => rw [containsSub_rm_rm_cons xs] at h; cases h
  | case2 x xs hno ih =>
    have hxs : containsSub rmPat xs = false := by
      simp only [containsSub, Bool.or_eq_false_iff] at h
      exact h.2
    rw [splitOnRM.eq_2 x xs hno, ih hxs]
    rfl
  | case3 => rfl

theorem two_le_splitOnRM_length (s : PyStr) (h : containsSub rmPat s = true) :
    2 ≤ (splitOnRM s).length := by
  induction s using splitOnRM.induct with
  | case1 xs ih =>
    have h1 : 0 < (splitOnRM xs).length := List.length_pos.mpr (splitOnRM_ne_nil xs)
    simp only [splitOnRM, List.length_cons]
    omega
  | case2 x xs hno ih =>
    have hbm : begMatch rmPat (x :: xs) = false := by
      cases hb : begMatch rmPat (x :: xs) with
      | false => rfl
      | true =>
        rcases (begMatch_rm_iff x xs).mp hb with ⟨hx, ys, hys⟩
        exact absurd (hno ys hx hys) id
    have hxs : containsSub rmPat xs = true := by
      simp only [containsSub, hbm, Bool.false_or] at h
      exact h
    rw [splitOnRM.eq_2 x xs hno,
      consHead_length_of_ne_nil x _ (splitOnRM_ne_nil xs)]
    exact ih hxs
  | case3 => simp [containsSub, rmPat, List.isEmpty] at h

/-- Characterisation of `line.split("RM")[-1]`: the last piece never contains
`"RM"`; when `"RM"` occurs in the line, the line is a prefix, then `"RM"`,
then that last piece; otherwise the last piece is the whole line. -/
theorem splitOnRM_pyLast_spec (s : PyStr) :
    containsSub rmPat (pyLast (splitOnRM s)) = false
      ∧ (containsSub rmPat s = true → ∃ pre, s = pre ++ 'R' :: 'M' :: pyLast (splitOnRM s))
      ∧ (containsSub rmPat s = false → pyLast (splitOnRM s) = s) := by
  induction s using splitOnRM.induct with
  | case1 xs ih =>
    rcases ih with ⟨ih1, ih2, ih3⟩
    have hstep : pyLast (splitOnRM ('R' :: 'M' :: xs)) = pyLast (splitOnRM xs) := by
      show pyLast ([] :: splitOnRM xs) = pyLast (splitOnRM xs)
      exact pyLast_cons_of_ne_nil [] _ (splitOnRM_ne_nil xs)
    refine ⟨hstep ▸ ih1, fun _ => ?_, fun hfa => ?_⟩
    · rw [hstep]
      cases hxs : containsSub rmPat xs with
      | true =>
        rcases ih2 hxs with ⟨pre, hpre⟩
        exact ⟨'R' :: 'M' :: pre, by rw [List.cons_append, List.cons_append, ← hpre]⟩
      | false => exact ⟨[], by rw [ih3 hxs]; rfl⟩
    · rw [containsSub_rm_rm_cons xs] at hfa; cases hfa
  | case2 x xs hno ih =>
    rcases ih with ⟨ih1, ih2, ih3⟩
    have hbm : begMatch rmPat (x :: xs) = false := by
      cases hb : begMatch rmPat (x :: xs) with
      | false => rfl
      | true =>
        rcases (begMatch_rm_iff x xs).mp hb with ⟨hx, ys, hys⟩
        exact absurd (hno ys hx hys) id
    have hcons : containsSub rmPat (x :: xs) = containsSub rmPat xs := by
      simp [containsSub, hbm]
    cases hxs : containsSub rmPat xs with
    | true =>
      have hstep : pyLast (splitOnRM (x :: xs)) = pyLast (splitOnRM xs) := by
        rw [splitOnRM.eq_2 x xs hno]
        exact pyLast_consHead x _ (two_le_splitOnRM_length xs hxs)
      refine ⟨hstep ▸ ih1, fun _ => ?_, fun hfa => ?_⟩
      · rcases ih2 hxs with ⟨pre, hpre⟩
        exact ⟨x :: pre, by rw [hstep, List.cons_append, ← hpre]⟩
      · rw [hcons, hxs] at hfa; cases hfa
    | false =>
      have hstep : pyLast (splitOnRM (x :: xs)) = x :: xs := by
        rw [splitOnRM.eq_2 x xs hno, splitOnRM_eq_single xs hxs]
        rfl
      refine ⟨?_, fun htr => ?_, fun _ => hstep⟩
      · rw [hstep, hcons, hxs]
      · rw [hcons, hxs] at htr; cases htr
  | case3 =>
    refine ⟨by simp [splitOnRM, pyLast, containsSub, rmPat, List.isEmpty],
      fun htr => ?_, fun _ => rfl⟩
    simp [containsSub, rmPat, List.isEmpty] at htr

/-- Mapping a function over both strings preserves `begMatch`. -/
theorem begMatch_map (f : Char → Char) (p s : PyStr) (h : begMatch p s = true) :
    begMatch (p.map f) (s.map f) = true := by
  induction p generalizing s with
  | nil => simp [begMatch]
  | cons a p ih =>
    cases s with
    | nil => simp [begMatch] at h
    | cons b s =>
      simp only [begMatch, Bool.and_eq_true, beq_iff_eq] at h
      simp [begMatch, h.1, ih s h.2]

/-- Mapping a function over both strings preserves substring containment. -/
theorem containsSub_map (f : Char → Char) (p s : PyStr) (h : containsSub p s = true) :
    containsSub (p.map f) (s.map f) = true := by
  induction s with
  | nil =>
    simp only [containsSub, List.isEmpty_iff] at h
    simp [containsSub, h]
  | cons x xs ih =>
    simp only [containsSub, Bool.or_eq_true] at h
    rcases h with h | h
    · have := begMatch_map f p (x :: xs) h
      simp only [List.map_cons] at this ⊢
      simp [containsSub, this]
    · simp [containsSub, ih h]

/-- Case-sensitive containment implies the source's case-insensitive check. -/
theorem containsCaseInsensitive_of_containsSub (p s : PyStr)
    (h : containsSub p s = true) : containsCaseInsensitive p s = true :=
  containsSub_map Char.toLower p s h

/-- Any string begins with its own prefix. -/
theorem begMatch_append (a b : PyStr) : begMatch a (a ++ b) = true := by
  induction a with
  | nil => rfl
  | cons x xs ih => simp [begMatch, ih]

/-- A line containing a space has a second space-separated field. -/
theorem secondField?_isSome_of_mem (l : PyStr) (h : ' ' ∈ l) :
    (secondField? l).isSome = true := by
  have h2 := two_le_splitOnCh_length ' ' l h
  rcases hr : splitOnCh ' ' l with _ | ⟨p, ps⟩
  · exact absurd hr (splitOnCh_ne_nil ' ' l)
  rcases ps with _ | ⟨q, ps'⟩
  · rw [hr] at h2; simp at h2
  · simp [secondField?, hr]

/-! ### Characterising the date/total loop -/

/-- The final value of the `date` variable after the loop: the second
space-separated field of the last date-matching line (`d0` when none
matches). -/
def loopDate (lines : List PyStr) (d0 : PyStr) : PyStr :=
  match (lines.filter fun l => containsCaseInsensitive datePat l).getLast? with
  | none => d0
  | some l => (secondField? l).getD []

/-- The final value of the `total_price` variable after the loop: the
total-branch value of the last total-matching line (`t0` when none
matches). -/
def loopTotal (lines : List PyStr) (t0 : PyStr) : PyStr :=
  match (lines.filter fun l => containsCaseInsensitive totalPat l).getLast? with
  | none => t0
  | some l => totalOfLine l

theorem loopDate_cons (l : PyStr) (rest : List PyStr) (d0 : PyStr) :
    loopDate (l :: rest) d0 =
      loopDate rest
        (if containsCaseInsensitive datePat l then (secondField? l).getD [] else d0) := by
  by_cases hp : containsCaseInsensitive datePat l
  · rw [if_pos hp]
    unfold loopDate
    rw [List.filter_cons_of_pos hp]
    rcases hf : rest.filter (fun l => containsCaseInsensitive datePat l) with _ | ⟨y, ys⟩
    · rfl
    · rw [List.getLast?_cons_cons]
      rcases hz : (y :: ys).getLast? with _ | z
      · rw [List.getLast?_eq_none_iff] at hz; cases hz
      · rfl
  · rw [if_neg hp]
    unfold loopDate
    rw [List.filter_cons_of_neg hp]

theorem loopTotal_cons (l : PyStr) (rest : List PyStr) (t0 : PyStr) :
    loopTotal (l :: rest) t0 = loopTotal rest (nextTotal l t0) := by
  by_cases hp : containsCaseInsensitive totalPat l
  · unfold loopTotal nextTotal
    rw [if_pos hp, List.filter_cons_of_pos hp]
    rcases hf : rest.filter (fun l => containsCaseInsensitive totalPat l) with _ | ⟨y, ys⟩
    · rfl
    · rw [List.getLast?_cons_cons]
      rcases hz : (y :: ys).getLast? with _ | z
      · rw [List.getLast?_eq_none_iff] at hz; cases hz
      · rfl
  · unfold loopTotal nextTotal
    rw [if_neg hp, List.filter_cons_of_neg hp]

/-- When every date-matching line has a second field, the loop terminates
normally and computes `loopDate` and `loopTotal` — the *last* matching line
wins for each, because each match overwrites the variable. -/
theorem parseLines_eq (lines : List PyStr) : ∀ d0 t0 : PyStr,
    (∀ l ∈ lines, containsCaseInsensitive datePat l = true → (secondField? l).isSome = true) →
    parseLines lines d0 t0 = .ok (loopDate lines d0, loopTotal lines t0) := by
  induction lines with
  | nil => intro d0 t0 _; rfl
  | cons l rest ih =>
    intro d0 t0 hd
    have hdl := hd l (List.mem_cons_self l rest)
    have hdr : ∀ l' ∈ rest, containsCaseInsensitive datePat l' = true →
        (secondField? l').isSome = true :=
      fun l' hmem => hd l' (List.mem_cons_of_mem l hmem)
    by_cases hp : containsCaseInsensitive datePat l
    · rcases hsf : secondField? l with _ | d'
      · rw [hsf] at hdl; simp [hp] at hdl
      · simp only [parseLines, if_pos hp, hsf]
        rw [ih d' (nextTotal l t0) hdr, loopDate_cons, loopTotal_cons, if_pos hp, hsf]
        rfl
    · simp only [parseLines, if_neg hp]
      rw [ih d0 (nextTotal l t0) hdr, loopDate_cons, loopTotal_cons, if_neg hp]

/-- Blobs with fewer than four lines make the address construction raise. -/
theorem shopAddressOf_eq_none (ls : List PyStr) (h : ls.length < 4) :
    shopAddressOf ls = none := by
  match ls, h with
  | [], _ => rfl
  | [_], _ => rfl
  | [_, _], _ => rfl
  | [_, _, _], _ => rfl
  | _ :: _ :: _ :: _ :: _, h => simp at h; omega

/-- Blobs with at least four lines construct the address from lines 2–4. -/
theorem shopAddressOf_eq_some (a b c d : PyStr) (rest : List PyStr) :
    shopAddressOf (a :: b :: c :: d :: rest) = some (b ++ ' ' :: c ++ ' ' :: d) := rfl

/-- Full characterisation of the field parser on a well-formed blob (at least
four lines, every date-matching line with a second field). -/
theorem parseBlob_eq_ok (t a b c d : PyStr) (rest : List PyStr)
    (hl : splitOnCh '\n' t = a :: b :: c :: d :: rest)
    (hd : ∀ l ∈ splitOnCh '\n' t, containsCaseInsensitive datePat l = true →
      (secondField? l).isSome = true) :
    parseBlob t = .ok ⟨t, a, b ++ ' ' :: c ++ ' ' :: d,
      loopDate (splitOnCh '\n' t) [], loopTotal (splitOnCh '\n' t) []⟩ := by
  unfold parseBlob vision_detect_text_img
  simp only
  rw [hl, shopAddressOf_eq_some, ← hl, parseLines_eq _ [] [] hd, hl]
  rfl

/-! ### Lemmas about the orchestrator -/

/-- A successful return of `vision_detect_text_img` always carries a truthy
response (the annotations key is present), so the `if not rsp: return` guard
after the Vision call in `main` can never fire. -/
theorem rspTruthy_of_vision_ok (r rsp : VisionRsp) (ex : Extracted)
    (h : vision_detect_text_img r = .ok (rsp, ex)) : rspTruthy rsp = true := by
  unfold vision_detect_text_img at h
  rcases hta : r.textAnns with _ | anns
  · rw [hta] at h; cases h
  · rcases anns with _ | ⟨t, anns'⟩
    · rw [hta] at h; cases h
    · rw [hta] at h
      simp only at h
      rcases ha : shopAddressOf (splitOnCh '\n' t) with _ | addr
      · rw [ha] at h; cases h
      · rw [ha] at h
        rcases hp : parseLines (splitOnCh '\n' t) [] [] with e | ⟨d, tp⟩
        · rw [hp] at h; cases h
        · rw [hp] at h
          simp only [Except.ok.injEq, Prod.mk.injEq] at h
          rw [← h.1, rspTruthy, hta]
          rfl

theorem procFiles_cons_skip (env : Env) (b fo : PyStr) (f : SourceFile)
    (rest : List SourceFile) (st : List PyStr)
    (h : fo ++ '/' :: f.name ∈ st.filter (fun p => begMatch fo p)) :
    procFiles env b fo (f :: rest) st = procFiles env b fo rest st := by
  simp only [procFiles]
  rw [if_pos h]

theorem procFiles_cons_upfail (env : Env) (b fo : PyStr) (f : SourceFile)
    (rest : List SourceFile) (st : List PyStr)
    (h1 : fo ++ '/' :: f.name ∉ st.filter (fun p => begMatch fo p))
    (h2 : env.uploadRsp (fo ++ '/' :: f.name) = none) :
    procFiles env b fo (f :: rest) st = ⟨st, [], [], .earlyNone⟩ := by
  simp only [procFiles]
  rw [if_neg h1, h2]

theorem procFiles_cons_visionerr (env : Env) (b fo : PyStr) (f : SourceFile)
    (rest : List SourceFile) (st : List PyStr) (u : Unit) (e : PyErr)
    (h1 : fo ++ '/' :: f.name ∉ st.filter (fun p => begMatch fo p))
    (h2 : env.uploadRsp (fo ++ '/' :: f.name) = some u)
    (h3 : vision_detect_text_img (env.annotate (env.media f)) = .error e) :
    procFiles env b fo (f :: rest) st =
      ⟨st ++ [fo ++ '/' :: f.name], [fo ++ '/' :: f.name], [], .exn e⟩ := by
  simp only [procFiles]
  rw [if_neg h1, h2, h3]

theorem procFiles_cons_appendfail (env : Env) (b fo : PyStr) (f : SourceFile)
    (rest : List SourceFile) (st : List PyStr) (u : Unit) (rsp : VisionRsp) (ex : Extracted)
    (h1 : fo ++ '/' :: f.name ∉ st.filter (fun p => begMatch fo p))
    (h2 : env.uploadRsp (fo ++ '/' :: f.name) = some u)
    (h3 : vision_detect_text_img (env.annotate (env.media f)) = .ok (rsp, ex))
    (h4 : env.appendRsp (rowOf b fo f ex) = none) :
    procFiles env b fo (f :: rest) st =
      ⟨st ++ [fo ++ '/' :: f.name], [fo ++ '/' :: f.name], [], .earlyNone⟩ := by
  simp only [procFiles]
  rw [if_neg h1, h2, h3]
  dsimp only
  rw [rspTruthy_of_vision_ok _ _ _ h3, if_pos rfl, h4]

theorem procFiles_cons_ok (env : Env) (b fo : PyStr) (f : SourceFile)
    (rest : List SourceFile) (st : List PyStr) (u : Unit) (rsp : VisionRsp) (ex : Extracted)
    (n : Nat)
    (h1 : fo ++ '/' :: f.name ∉ st.filter (fun p => begMatch fo p))
    (h2 : env.uploadRsp (fo ++ '/' :: f.name) = some u)
    (h3 : vision_detect_text_img (env.annotate (env.media f)) = .ok (rsp, ex))
    (h4 : env.appendRsp (rowOf b fo f ex) = some n) :
    procFiles env b fo (f :: rest) st =
      ⟨(procFiles env b fo rest (st ++ [fo ++ '/' :: f.name])).bucket,
        (fo ++ '/' :: f.name) :: (procFiles env b fo rest (st ++ [fo ++ '/' :: f.name])).ups,
        rowOf b fo f ex :: (procFiles env b fo rest (st ++ [fo ++ '/' :: f.name])).rows,
        (procFiles env b fo rest (st ++ [fo ++ '/' :: f.name])).ret⟩ := by
  simp only [procFiles]
  rw [if_neg h1, h2, h3]
  dsimp only
  rw [rspTruthy_of_vision_ok _ _ _ h3, if_pos rfl, h4]

/-- The final bucket contents of a run are the initial contents followed by
exactly the uploads the run performed. -/
theorem procFiles_bucket (env : Env) (b fo : PyStr) (files : List SourceFile)
    (st : List PyStr) :
    (procFiles env b fo files st).bucket = st ++ (procFiles env b fo files st).ups := by
  induction files generalizing st with
  | nil => simp [procFiles]
  | cons f rest ih =>
    by_cases hmem : fo ++ '/' :: f.name ∈ st.filter (fun p => begMatch fo p)
    · rw [procFiles_cons_skip env b fo f rest st hmem]
      exact ih st
    · rcases hup : env.uploadRsp (fo ++ '/' :: f.name) with _ | u
      · rw [procFiles_cons_upfail env b fo f rest st hmem hup]
        simp
      · rcases hv : vision_detect_text_img (env.annotate (env.media f)) with e | ⟨rsp, ex⟩
        · rw [procFiles_cons_visionerr env b fo f rest st u e hmem hup hv]
        · rcases ha : env.appendRsp (rowOf b fo f ex) with _ | n
          · rw [procFiles_cons_appendfail env b fo f rest st u rsp ex hmem hup hv ha]
          · rw [procFiles_cons_ok env b fo f rest st u rsp ex n hmem hup hv ha]
            simp only
            rw [ih (st ++ [fo ++ '/' :: f.name])]
            simp

/-- Membership of a destination path in the folder-filtered bucket listing is
plain membership in the bucket: the path starts with the folder. -/
theorem mem_filter_iff_mem (fo nm : PyStr) (st : List PyStr) :
    (fo ++ '/' :: nm) ∈ st.filter (fun p => begMatch fo p) ↔ (fo ++ '/' :: nm) ∈ st := by
  rw [List.mem_filter]
  constructor
  · exact fun h => h.1
  · exact fun h => ⟨h, begMatch_append fo ('/' :: nm)⟩

/-- After a successful run every listed file's destination path is in the
final bucket contents (it was either skipped because already present, or
uploaded by the run). -/
theorem procFiles_success_covers (env : Env) (b fo : PyStr) (files : List SourceFile)
    (st : List PyStr) (hret : (procFiles env b fo files st).ret = .success) :
    ∀ f ∈ files, (fo ++ '/' :: f.name) ∈ (procFiles env b fo files st).bucket := by
  induction files generalizing st with
  | nil => intro f hf; cases hf
  | cons f rest ih =>
    intro g hg
    by_cases hmem : fo ++ '/' :: f.name ∈ st.filter (fun p => begMatch fo p)
    · rw [procFiles_cons_skip env b fo f rest st hmem] at hret ⊢
      rcases List.mem_cons.mp hg with rfl | hg'
      · have hst : (fo ++ '/' :: g.name) ∈ st := (mem_filter_iff_mem fo g.name st).mp hmem
        rw [procFiles_bucket]
        exact List.mem_append_left _ hst
      · exact ih st hret g hg'
    · rcases hup : env.uploadRsp (fo ++ '/' :: f.name) with _ | u
      · rw [procFiles_cons_upfail env b fo f rest st hmem hup] at hret
        cases hret
      · rcases hv : vision_detect_text_img (env.annotate (env.media f)) with e | ⟨rsp, ex⟩
        · rw [procFiles_cons_visionerr env b fo f rest st u e hmem hup hv] at hret
          cases hret
        · rcases ha : env.appendRsp (rowOf b fo f ex) with _ | n
          · rw [procFiles_cons_appendfail env b fo f rest st u rsp ex hmem hup hv ha] at hret
            cases hret
          · rw [procFiles_cons_ok env b fo f rest st u rsp ex n hmem hup hv ha] at hret ⊢
            simp only at hret ⊢
            rcases List.mem_cons.mp hg with rfl | hg'
            · rw [procFiles_bucket]
              exact List.mem_append_left _
                (List.mem_append_right st (List.mem_singleton.mpr rfl))
            · exact ih (st ++ [fo ++ '/' :: f.name]) hret g hg'

/-- When every listed file's destination path is already in the bucket, the
run skips every file: no uploads, no rows, bucket unchanged, success. -/
theorem procFiles_all_skipped (env : Env) (b fo : PyStr) (files : List SourceFile)
    (st : List PyStr) (h : ∀ f ∈ files, (fo ++ '/' :: f.name) ∈ st) :
    procFiles env b fo files st = ⟨st, [], [], .success⟩ := by
  induction files with
  | nil => rfl
  | cons f rest ih =>
    have hmem : fo ++ '/' :: f.name ∈ st.filter (fun p => begMatch fo p) :=
      (mem_filter_iff_mem fo f.name st).mpr (h f (List.mem_cons_self f rest))
    rw [procFiles_cons_skip env b fo f rest st hmem]
    exact ih (fun g hg => h g (List.mem_cons_of_mem f hg))

/-- Processing `xs ++ ys` decomposes: when the prefix `xs` processes
successfully, its effects happen first and `ys` continues from the bucket
contents the prefix reached. -/
theorem procFiles_append (env : Env) (b fo : PyStr) (xs ys : List SourceFile) :
    ∀ st st1 u1 r1, procFiles env b fo xs st = ⟨st1, u1, r1, .success⟩ →
    procFiles env b fo (xs ++ ys) st =
      ⟨(procFiles env b fo ys st1).bucket, u1 ++ (procFiles env b fo ys st1).ups,
        r1 ++ (procFiles env b fo ys st1).rows, (procFiles env b fo ys st1).ret⟩ := by
  induction xs with
  | nil =>
    intro st st1 u1 r1 h
    simp only [procFiles, RunOut.mk.injEq, and_true] at h
    rcases h with ⟨rfl, rfl, rfl⟩
    simp only [List.nil_append]
  | cons f xs' ih =>
    intro st st1 u1 r1 h
    by_cases hmem : fo ++ '/' :: f.name ∈ st.filter (fun p => begMatch fo p)
    · rw [procFiles_cons_skip env b fo f xs' st hmem] at h
      rw [List.cons_append, procFiles_cons_skip env b fo f (xs' ++ ys) st hmem]
      exact ih st st1 u1 r1 h
    · rcases hup : env.uploadRsp (fo ++ '/' :: f.name) with _ | u
      · rw [procFiles_cons_upfail env b fo f xs' st hmem hup] at h
        simp at h
      · rcases hv : vision_detect_text_img (env.annotate (env.media f)) with e | ⟨rsp, ex⟩
        · rw [procFiles_cons_visionerr env b fo f xs' st u e hmem hup hv] at h
          simp at h
        · rcases ha : env.appendRsp (rowOf b fo f ex) with _ | n
          · rw [procFiles_cons_appendfail env b fo f xs' st u rsp ex hmem hup hv ha] at h
            simp at h
          · rw [procFiles_cons_ok env b fo f xs' st u rsp ex n hmem hup hv ha] at h
            simp only [RunOut.mk.injEq] at h
            obtain ⟨hb, hu, hr, hret⟩ := h
            rcases hu' : (procFiles env b fo xs' (st ++ [fo ++ '/' :: f.name]))
              with ⟨stm, um, rm, retm⟩
            rw [hu'] at hb hu hr hret
            simp only at hb hu hr hret
            rw [List.cons_append, procFiles_cons_ok env b fo f (xs' ++ ys) st u rsp ex n
              hmem hup hv ha]
            have hmid : procFiles env b fo xs' (st ++ [fo ++ '/' :: f.name]) =
                ⟨stm, um, rm, .success⟩ := by rw [hu', hret]
            rw [ih (st ++ [fo ++ '/' :: f.name]) stm um rm (by rw [hmid, hb])]
            simp only
            rw [← hb, ← hu, ← hr]
            simp

/-! ### Concrete fixtures used by witnesses and counterexamples -/

/-- A sample Drive listing entry. -/
def fileA : SourceFile := ⟨"idA".toList, "a.png".toList, "image/png".toList, "t0".toList⟩

/-- A benign four-line blob with no date or total lines. -/
def goodBlob : PyStr := "S1\nAddr1\nAddr2\nAddr3".toList

/-- An environment in which every external call succeeds. -/
def envGood : Env :=
  ⟨[fileA], fun _ => "bytes".toList, fun _ => some (), fun _ => ⟨some [goodBlob], false⟩,
    fun _ => some 6⟩

/-- An environment whose upload response is falsy. -/
def envUpFail : Env :=
  ⟨[fileA], fun _ => "bytes".toList, fun _ => none, fun _ => ⟨some [goodBlob], false⟩,
    fun _ => some 6⟩

/-- An environment whose Drive listing is empty. -/
def envEmptyListing : Env :=
  ⟨[], fun _ => "bytes".toList, fun _ => some (), fun _ => ⟨some [goodBlob], false⟩,
    fun _ => some 6⟩

/-- An environment whose Vision response carries no text annotations. -/
def envVisionEmpty : Env :=
  ⟨[fileA], fun _ => "bytes".toList, fun _ => some (), fun _ => ⟨none, false⟩,
    fun _ => some 6⟩

/-- An environment whose Sheets append response is falsy. -/
def envAppendFail : Env :=
  ⟨[fileA], fun _ => "bytes".toList, fun _ => some (), fun _ => ⟨some [goodBlob], false⟩,
    fun _ => none⟩

/-! ### Remaining helper lemmas for the claims -/

theorem loopDate_eq_of_getLast (lines : List PyStr) (ld d0 : PyStr)
    (h : (lines.filter fun l => containsCaseInsensitive datePat l).getLast? = some ld) :
    loopDate lines d0 = (secondField? ld).getD [] := by
  unfold loopDate
  rw [h]

theorem loopTotal_eq_of_getLast (lines : List PyStr) (lt t0 : PyStr)
    (h : (lines.filter fun l => containsCaseInsensitive totalPat l).getLast? = some lt) :
    loopTotal lines t0 = totalOfLine lt := by
  unfold loopTotal
  rw [h]

theorem mainRun_eq_procFiles (env : Env) (b fo : PyStr) (st : List PyStr)
    (h : env.listing ≠ []) :
    mainRun env b fo st = procFiles env b fo env.listing st := by
  unfold mainRun
  rcases henv : env.listing with _ | ⟨g, gs⟩
  · exact absurd henv h
  · rfl

/-! ### Claim theorems -/

/-- C5 (code bug): the claim — and the source's own initialisation of
`extracted_text` — intend that an OCR response with no text annotation makes
`vision_detect_text_img` return normally with an empty text blob; the code
instead raises `UnboundLocalError` at the `return`, because `shop_name` and
`shop_address` were never assigned.  Evaluated here on responses without the
annotations key (with and without other keys present). -/
theorem missing_annotation_crash :
    vision_detect_text_img ⟨none, false⟩ = .error .unboundLocal
      ∧ vision_detect_text_img ⟨none, true⟩ = .error .unboundLocal := ⟨rfl, rfl⟩

/-- C9 (code bug): empty listing, falsy upload response and falsy append
response all make `main` return `None` and the CLI print the generic failure
message, as claimed — but a Vision response with no text annotation makes the
process crash with a traceback (via the C5 bug) instead of printing the
generic message, contradicting the claim for that fourth condition. -/
theorem empty_result_cli_message_bug :
    cliRun envEmptyListing "bkt".toList "receipts".toList [] = .genericError
      ∧ cliRun envUpFail "bkt".toList "receipts".toList [] = .genericError
      ∧ cliRun envAppendFail "bkt".toList "receipts".toList [] = .genericError
      ∧ cliRun envVisionEmpty "bkt".toList "receipts".toList [] = .traceback .unboundLocal
      ∧ CliMsg.traceback .unboundLocal ≠ .genericError :=
  ⟨rfl, rfl, rfl, rfl, by decide⟩

/-- C7 (confirmed): on every text blob with fewer than four lines the
address construction `lines[1] + " " + lines[2] + " " + lines[3]` hits its
out-of-range branch, and the field parser fails with `IndexError`. -/
theorem short_blob_address_fails (t : PyStr) (h : (splitOnCh '\n' t).length < 4) :
    shopAddressOf (splitOnCh '\n' t) = none ∧ parseBlob t = .error .indexError := by
  have hn := shopAddressOf_eq_none _ h
  refine ⟨hn, ?_⟩
  unfold parseBlob vision_detect_text_img
  simp only
  rw [hn]
  rfl

/-- Witness for C7 at the spec's own three-line boundary example. -/
theorem short_blob_address_fails_witness :
    (splitOnCh '\n' "Shop X\nDate 2023-05-01\nTotal RM 12.50".toList).length < 4
      ∧ (shopAddressOf (splitOnCh '\n' "Shop X\nDate 2023-05-01\nTotal RM 12.50".toList) = none
        ∧ parseBlob "Shop X\nDate 2023-05-01\nTotal RM 12.50".toList = .error .indexError) :=
  ⟨by decide, short_blob_address_fails "Shop X\nDate 2023-05-01\nTotal RM 12.50".toList (by decide)⟩

/-- C6 counterexample: a four-line blob whose date-matching line `"date"` has
no second space-separated field makes the whole parser raise `IndexError`, so
it does not return the claimed shop name and address even though the blob has
at least four lines. -/
theorem shop_fields_unconditional_refuted :
    4 ≤ (splitOnCh '\n' "A\nB\nC\ndate".toList).length
      ∧ parseBlob "A\nB\nC\ndate".toList = .error .indexError := ⟨by decide, rfl⟩

/-- C6 as amended: on a blob with at least four lines *whose date-matching
lines each contain a space*, the parser returns shop name = first line and
shop address = lines 2–4 space-joined. -/
theorem shop_fields_of_wellformed_blob (t a b c d : PyStr) (rest : List PyStr)
    (hl : splitOnCh '\n' t = a :: b :: c :: d :: rest)
    (hd : ∀ l ∈ splitOnCh '\n' t, containsCaseInsensitive datePat l = true → ' ' ∈ l) :
    ∃ ex, parseBlob t = .ok ex ∧ ex.shop_name = a
      ∧ ex.shop_address = b ++ ' ' :: c ++ ' ' :: d := by
  have hd' : ∀ l ∈ splitOnCh '\n' t, containsCaseInsensitive datePat l = true →
      (secondField? l).isSome = true :=
    fun l hm hc => secondField?_isSome_of_mem l (hd l hm hc)
  exact ⟨_, parseBlob_eq_ok t a b c d rest hl hd', rfl, rfl⟩

/-- Witness for the amended C6 at the spec's sample blob. -/
theorem shop_fields_of_wellformed_blob_witness :
    ∃ ex, parseBlob "Shop X\nLn1\nLn2\nLn3\nDate: 2023-05-01\nTotal 45.00".toList = .ok ex
      ∧ ex.shop_name = "Shop X".toList
      ∧ ex.shop_address = "Ln1".toList ++ ' ' :: "Ln2".toList ++ ' ' :: "Ln3".toList :=
  shop_fields_of_wellformed_blob "Shop X\nLn1\nLn2\nLn3\nDate: 2023-05-01\nTotal 45.00".toList
    "Shop X".toList "Ln1".toList "Ln2".toList "Ln3".toList
    ["Date: 2023-05-01".toList, "Total 45.00".toList] (by decide) (by decide)

/-- C1 counterexample: in a blob with two date-matching lines the parser
returns the second field of the *last* one (`"2222"`), not of the first
(`"1111"`): each matching line overwrites `date`, so later matching lines do
affect the result, contrary to the claim. -/
theorem date_first_match_refuted :
    parseBlob "A\nB\nC\nDate 1111\nDate 2222".toList =
      .ok ⟨"A\nB\nC\nDate 1111\nDate 2222".toList, "A".toList,
        "B C Date 1111".toList, "2222".toList, []⟩
      ∧ ("2222".toList : PyStr) ≠ "1111".toList := ⟨rfl, by decide⟩

/-- C1 as amended: on a blob with at least four lines whose date-matching
lines each contain a space, the returned purchase date is `split(" ")[1]` of
the *last* date-matching line. -/
theorem date_last_match_wins (t a b c d ld : PyStr) (rest : List PyStr)
    (hl : splitOnCh '\n' t = a :: b :: c :: d :: rest)
    (hd : ∀ l ∈ splitOnCh '\n' t, containsCaseInsensitive datePat l = true → ' ' ∈ l)
    (hlast : ((splitOnCh '\n' t).filter fun l => containsCaseInsensitive datePat l).getLast?
      = some ld) :
    ∃ ex, parseBlob t = .ok ex ∧ secondField? ld = some ex.date := by
  have hd' : ∀ l ∈ splitOnCh '\n' t, containsCaseInsensitive datePat l = true →
      (secondField? l).isSome = true :=
    fun l hm hc => secondField?_isSome_of_mem l (hd l hm hc)
  have hmemf : ld ∈ (splitOnCh '\n' t).filter (fun l => containsCaseInsensitive datePat l) :=
    List.mem_of_getLast?_eq_some hlast
  have hmem := List.mem_filter.mp hmemf
  have hsome : (secondField? ld).isSome = true := hd' ld hmem.1 hmem.2
  obtain ⟨v, hv⟩ := Option.isSome_iff_exists.mp hsome
  refine ⟨_, parseBlob_eq_ok t a b c d rest hl hd', ?_⟩
  dsimp only
  rw [loopDate_eq_of_getLast _ ld [] hlast, hv]
  rfl

/-- Witness for the amended C1. -/
theorem date_last_match_wins_witness :
    ∃ ex, parseBlob "A\nB\nC\nDate 2023-05-01".toList = .ok ex
      ∧ secondField? "Date 2023-05-01".toList = some ex.date :=
  date_last_match_wins "A\nB\nC\nDate 2023-05-01".toList
    "A".toList "B".toList "C".toList "Date 2023-05-01".toList "Date 2023-05-01".toList []
    (by decide) (by decide) (by decide)

/-- C4 counterexample: on `"A\nB\nC\nTotal RM 12.50"` the parser returns
`" 12.50"` — `split("RM")[-1]` keeps the leading space — not the trimmed
`"12.50"` the claim states. -/
theorem total_rm_trimmed_refuted :
    parseBlob "A\nB\nC\nTotal RM 12.50".toList =
      .ok ⟨"A\nB\nC\nTotal RM 12.50".toList, "A".toList, "B C Total RM 12.50".toList,
        [], " 12.50".toList⟩
      ∧ (" 12.50".toList : PyStr) ≠ "12.50".toList := ⟨rfl, by decide⟩

/-- C4 as amended: on a well-formed blob whose *last* total-matching line
contains the literal `"RM"`, the returned total price is the untrimmed
substring of that line after the last occurrence of `"RM"` (so the line is a
prefix, then `"RM"`, then the returned total, which contains no further
`"RM"`). -/
theorem total_rm_untrimmed_suffix (t a b c d lt : PyStr) (rest : List PyStr)
    (hl : splitOnCh '\n' t = a :: b :: c :: d :: rest)
    (hd : ∀ l ∈ splitOnCh '\n' t, containsCaseInsensitive datePat l = true → ' ' ∈ l)
    (hlast : ((splitOnCh '\n' t).filter fun l => containsCaseInsensitive totalPat l).getLast?
      = some lt)
    (hrm : containsSub rmPat lt = true) :
    ∃ ex pre, parseBlob t = .ok ex
      ∧ lt = pre ++ 'R' :: 'M' :: ex.total_price
      ∧ containsSub rmPat ex.total_price = false := by
  have hd' : ∀ l ∈ splitOnCh '\n' t, containsCaseInsensitive datePat l = true →
      (secondField? l).isSome = true :=
    fun l hm hc => secondField?_isSome_of_mem l (hd l hm hc)
  obtain ⟨sp1, sp2, _⟩ := splitOnRM_pyLast_spec lt
  obtain ⟨pre, hpre⟩ := sp2 hrm
  refine ⟨_, pre, parseBlob_eq_ok t a b c d rest hl hd', ?_, ?_⟩
  · dsimp only
    rw [loopTotal_eq_of_getLast _ lt [] hlast]
    unfold totalOfLine
    rw [containsCaseInsensitive_of_containsSub _ _ hrm, if_pos rfl]
    exact hpre
  · dsimp only
    rw [loopTotal_eq_of_getLast _ lt [] hlast]
    unfold totalOfLine
    rw [containsCaseInsensitive_of_containsSub _ _ hrm, if_pos rfl]
    exact sp1

/-- Witness for the amended C4. -/
theorem total_rm_untrimmed_suffix_witness :
    ∃ ex pre, parseBlob "A\nB\nC\nTotal RM 12.50".toList = .ok ex
      ∧ "Total RM 12.50".toList = pre ++ 'R' :: 'M' :: ex.total_price
      ∧ containsSub rmPat ex.total_price = false :=
  total_rm_untrimmed_suffix "A\nB\nC\nTotal RM 12.50".toList
    "A".toList "B".toList "C".toList "Total RM 12.50".toList "Total RM 12.50".toList []
    (by decide) (by decide) (by decide) (by decide)

/-- C8 counterexample: the one-line blob `"Total 5.00"` has a total-matching
line with no `"RM"`, yet the parser raises `IndexError` at the address
construction and returns no total price at all. -/
theorem total_no_rm_refuted :
    containsCaseInsensitive totalPat "Total 5.00".toList = true
      ∧ containsCaseInsensitive rmPat "Total 5.00".toList = false
      ∧ parseBlob "Total 5.00".toList = .error .indexError := ⟨by decide, by decide, rfl⟩

/-- C8 as amended: on a well-formed blob whose *last* total-matching line
does not contain `"rm"` in any casing, the returned total price is
`split(" ")[-1]` of that line: the substring after its last space (the whole
line when it has no space), never itself containing a space. -/
theorem total_no_rm_last_field (t a b c d lt : PyStr) (rest : List PyStr)
    (hl : splitOnCh '\n' t = a :: b :: c :: d :: rest)
    (hd : ∀ l ∈ splitOnCh '\n' t, containsCaseInsensitive datePat l = true → ' ' ∈ l)
    (hlast : ((splitOnCh '\n' t).filter fun l => containsCaseInsensitive totalPat l).getLast?
      = some lt)
    (hrm : containsCaseInsensitive rmPat lt = false) :
    ∃ ex, parseBlob t = .ok ex ∧ ex.total_price = pyLast (splitOnCh ' ' lt)
      ∧ ' ' ∉ ex.total_price
      ∧ (' ' ∈ lt → ∃ pre, lt = pre ++ ' ' :: ex.total_price)
      ∧ (' ' ∉ lt → ex.total_price = lt) := by
  have hd' : ∀ l ∈ splitOnCh '\n' t, containsCaseInsensitive datePat l = true →
      (secondField? l).isSome = true :=
    fun l hm hc => secondField?_isSome_of_mem l (hd l hm hc)
  obtain ⟨sp1, sp2, sp3⟩ := splitOnCh_pyLast_spec ' ' lt
  have htl : loopTotal (splitOnCh '\n' t) [] = pyLast (splitOnCh ' ' lt) := by
    rw [loopTotal_eq_of_getLast _ lt [] hlast]
    unfold totalOfLine
    rw [hrm, if_neg (by simp)]
  refine ⟨_, parseBlob_eq_ok t a b c d rest hl hd', ?_, ?_, ?_, ?_⟩
  · exact htl
  · dsimp only
    rw [htl]
    exact sp1
  · intro hsp
    dsimp only
    rw [htl]
    exact sp2 hsp
  · intro hsp
    dsimp only
    rw [htl]
    exact sp3 hsp

/-- Witness for the amended C8. -/
theorem total_no_rm_last_field_witness :
    ∃ ex, parseBlob "A\nB\nC\nTotal 45.00".toList = .ok ex
      ∧ ex.total_price = pyLast (splitOnCh ' ' "Total 45.00".toList)
      ∧ ' ' ∉ ex.total_price
      ∧ (' ' ∈ "Total 45.00".toList → ∃ pre, "Total 45.00".toList = pre ++ ' ' :: ex.total_price)
      ∧ (' ' ∉ "Total 45.00".toList → ex.total_price = "Total 45.00".toList) :=
  total_no_rm_last_field "A\nB\nC\nTotal 45.00".toList
    "A".toList "B".toList "C".toList "Total 45.00".toList "Total 45.00".toList []
    (by decide) (by decide) (by decide) (by decide)

/-- C10 counterexample: the first total-matching line of this blob,
`"Total rm 5"`, contains `"rm"` only in lowercase, yet the parser does not
return that entire line: the later total-matching line `"Total RM 9"`
overwrites the result with `" 9"`. -/
theorem total_lowercase_rm_first_refuted :
    parseBlob "A\nB\nC\nTotal rm 5\nTotal RM 9".toList =
      .ok ⟨"A\nB\nC\nTotal rm 5\nTotal RM 9".toList, "A".toList,
        "B C Total rm 5".toList, [], " 9".toList⟩
      ∧ (" 9".toList : PyStr) ≠ "Total rm 5".toList
      ∧ containsCaseInsensitive totalPat "Total rm 5".toList = true
      ∧ containsCaseInsensitive rmPat "Total rm 5".toList = true
      ∧ containsSub rmPat "Total rm 5".toList = false :=
  ⟨rfl, by decide, by decide, by decide, by decide⟩

/-- C10 as amended: on a well-formed blob whose *last* total-matching line
contains `"rm"` case-insensitively but not the exact uppercase `"RM"`, the
case-insensitive check selects the RM branch, the split on the literal
`"RM"` finds no separator, and the parser returns that entire line as the
total price. -/
theorem total_lowercase_rm_whole_line (t a b c d lt : PyStr) (rest : List PyStr)
    (hl : splitOnCh '\n' t = a :: b :: c :: d :: rest)
    (hd : ∀ l ∈ splitOnCh '\n' t, containsCaseInsensitive datePat l = true → ' ' ∈ l)
    (hlast : ((splitOnCh '\n' t).filter fun l => containsCaseInsensitive totalPat l).getLast?
      = some lt)
    (hci : containsCaseInsensitive rmPat lt = true)
    (hlit : containsSub rmPat lt = false) :
    ∃ ex, parseBlob t = .ok ex ∧ ex.total_price = lt := by
  have hd' : ∀ l ∈ splitOnCh '\n' t, containsCaseInsensitive datePat l = true →
      (secondField? l).isSome = true :=
    fun l hm hc => secondField?_isSome_of_mem l (hd l hm hc)
  refine ⟨_, parseBlob_eq_ok t a b c d rest hl hd', ?_⟩
  dsimp only
  rw [loopTotal_eq_of_getLast _ lt [] hlast]
  unfold totalOfLine
  rw [hci, if_pos rfl, splitOnRM_eq_single lt hlit]
  rfl

/-- Witness for the amended C10. -/
theorem total_lowercase_rm_whole_line_witness :
    ∃ ex, parseBlob "A\nB\nC\nTotal rm 5".toList = .ok ex
      ∧ ex.total_price = "Total rm 5".toList :=
  total_lowercase_rm_whole_line "A\nB\nC\nTotal rm 5".toList
    "A".toList "B".toList "C".toList "Total rm 5".toList "Total rm 5".toList []
    (by decide) (by decide) (by decide) (by decide) (by decide)

/-- C2 (confirmed): after a run of `main` that completed successfully,
running it again with the same listing and oracles, starting from the bucket
contents the first run left, performs zero uploads and appends zero rows —
every listed file's destination path `<folder>/<name>` is already among the
bucket paths and the file is skipped entirely. -/
theorem second_run_no_effects (env : Env) (b fo : PyStr) (st0 st1 ups1 : List PyStr)
    (rows1 : List (List PyStr))
    (h : mainRun env b fo st0 = ⟨st1, ups1, rows1, .success⟩) :
    mainRun env b fo st1 = ⟨st1, [], [], .success⟩ := by
  have hne : env.listing ≠ [] := by
    intro hnil
    unfold mainRun at h
    rw [hnil] at h
    simp at h
  rw [mainRun_eq_procFiles env b fo st0 hne] at h
  rw [mainRun_eq_procFiles env b fo st1 hne]
  have hret : (procFiles env b fo env.listing st0).ret = .success := by rw [h]
  have hcov := procFiles_success_covers env b fo env.listing st0 hret
  rw [h] at hcov
  simp only at hcov
  exact procFiles_all_skipped env b fo env.listing st1 hcov

/-- Witness for C2: a successful run over one file leaves its path in the
bucket; the second run from that state is a no-op. -/
theorem second_run_no_effects_witness :
    mainRun envGood "bkt".toList "receipts".toList ["receipts/a.png".toList] =
      ⟨["receipts/a.png".toList], [], [], .success⟩ :=
  second_run_no_effects envGood "bkt".toList "receipts".toList []
    ["receipts/a.png".toList]
    (mainRun envGood "bkt".toList "receipts".toList []).ups
    (mainRun envGood "bkt".toList "receipts".toList []).rows
    rfl

/-- C3 (confirmed): when a fatal condition hits file `f` of the listing — a
falsy upload response, an exception out of the Vision step (which is how a
missing extraction response surfaces), or a falsy append response — the run
ends at `f` and never touches the files after it; every earlier processed
file stays archived and reported (no rollback), no row is written for `f`,
and `f`'s upload is kept exactly when the upload step had confirmed. -/
theorem fatal_stop_no_rollback (env : Env) (b fo : PyStr) (done rest : List SourceFile)
    (f : SourceFile) (st0 st1 ups1 : List PyStr) (rows1 : List (List PyStr))
    (hl : env.listing = done ++ f :: rest)
    (h1 : procFiles env b fo done st0 = ⟨st1, ups1, rows1, .success⟩)
    (h2 : (fo ++ '/' :: f.name) ∉ st1)
    (hfatal : env.uploadRsp (fo ++ '/' :: f.name) = none
      ∨ ((env.uploadRsp (fo ++ '/' :: f.name)).isSome = true ∧
          ∀ rsp ex, vision_detect_text_img (env.annotate (env.media f)) = .ok (rsp, ex) →
            env.appendRsp (rowOf b fo f ex) = none)) :
    ∃ ret, ret ≠ MainRet.success ∧
      mainRun env b fo st0 =
        ⟨st1 ++ (if (env.uploadRsp (fo ++ '/' :: f.name)).isSome
            then [fo ++ '/' :: f.name] else []),
          ups1 ++ (if (env.uploadRsp (fo ++ '/' :: f.name)).isSome
            then [fo ++ '/' :: f.name] else []),
          rows1, ret⟩ := by
  have hne : env.listing ≠ [] := by rw [hl]; simp
  rw [mainRun_eq_procFiles env b fo st0 hne, hl,
    procFiles_append env b fo done (f :: rest) st0 st1 ups1 rows1 h1]
  have hmem : fo ++ '/' :: f.name ∉ st1.filter (fun p => begMatch fo p) := by
    rw [mem_filter_iff_mem]
    exact h2
  rcases hfatal with hup | ⟨hupS, happ⟩
  · refine ⟨.earlyNone, by decide, ?_⟩
    rw [procFiles_cons_upfail env b fo f rest st1 hmem hup, hup]
    simp
  · obtain ⟨u, hu⟩ := Option.isSome_iff_exists.mp hupS
    rcases hv : vision_detect_text_img (env.annotate (env.media f)) with e | ⟨rsp, ex⟩
    · refine ⟨.exn e, by simp, ?_⟩
      rw [procFiles_cons_visionerr env b fo f rest st1 u e hmem hu hv, hu]
      simp
    · have ha := happ rsp ex hv
      refine ⟨.earlyNone, by decide, ?_⟩
      rw [procFiles_cons_appendfail env b fo f rest st1 u rsp ex hmem hu hv ha, hu]
      simp

/-- Witness for C3: a run whose very first upload response is falsy aborts
with no uploads, no rows, and an unchanged bucket. -/
theorem fatal_stop_no_rollback_witness :
    ∃ ret, ret ≠ MainRet.success ∧
      mainRun envUpFail "bkt".toList "receipts".toList [] =
        ⟨[] ++ (if (envUpFail.uploadRsp ("receipts".toList ++ '/' :: fileA.name)).isSome
            then ["receipts".toList ++ '/' :: fileA.name] else []),
          [] ++ (if (envUpFail.uploadRsp ("receipts".toList ++ '/' :: fileA.name)).isSome
            then ["receipts".toList ++ '/' :: fileA.name] else []),
          [], ret⟩ :=
  fatal_stop_no_rollback envUpFail "bkt".toList "receipts".toList [] [] fileA
    [] [] [] [] rfl rfl (List.not_mem_nil _) (Or.inl rfl)

end ReceiptExtractor
